import Mathlib

/-!
# Verification of the monitoring repository's core pipeline

Shallow embedding of the telemetry sender (`src/disp2.py`) and receiver
(`src/moni2.py`): the wire codec, the duplicate suppressor, the phase-sequence
validator, the bounded event log, and the precision send scheduler.
Strings on the wire are modelled as `List Char`; wall/monotonic clock readings
as `ℚ` (seconds).
-/

namespace Monitoring

/-! ## String utilities mirroring the Python primitives used by the source -/

/-- Rational subtraction computed directly on numerator/denominator pairs so
that the kernel can evaluate it on closed inputs; `ratSub_eq` below shows it
is ordinary subtraction. -/
def ratSub (a b : ℚ) : ℚ := mkRat (a.num * b.den - b.num * a.den) (a.den * b.den)

/-- ASCII whitespace, as stripped by Python's `str.strip()` on ASCII input. -/
def isWs (c : Char) : Bool :=
  c = ' ' || c = '\t' || c = '\n' || c = '\r' || c = '\x0b' || c = '\x0c'

/-- Python `s.strip()`: drop whitespace from both ends. -/
def pyStrip (l : List Char) : List Char :=
  ((l.dropWhile isWs).reverse.dropWhile isWs).reverse

/-- Python `s.split(sep, 1)` when `sep` occurs in `s`: the part before the
first occurrence of `c` and the part after it. -/
def splitFirst (c : Char) : List Char → List Char × List Char
  | [] => ([], [])
  | x :: xs =>
    if x = c then ([], xs)
    else
      let r := splitFirst c xs
      (x :: r.1, r.2)

/-- Python `s.split(sep)`: split at every occurrence of `c`; the result is
never empty (`"".split(c) == [""]`). -/
def splitAll (c : Char) : List Char → List (List Char)
  | [] => [[]]
  | x :: xs =>
    if x = c then [] :: splitAll c xs
    else
      match splitAll c xs with
      | [] => [[x]]
      | h :: t => (x :: h) :: t

/-- Python `sep.join(parts)` for a one-character separator. -/
def joinWith (c : Char) : List (List Char) → List Char
  | [] => []
  | [p] => p
  | p :: ps => p ++ c :: joinWith c ps

/-- First value bound to `k` in an association list (Python dict lookup). -/
def assocFind (k : List Char) : List (List Char × List Char) → Option (List Char)
  | [] => none
  | e :: es => if e.1 = k then some e.2 else assocFind k es

/-- Python dict assignment `d[k] = v` on an insertion-ordered association
list with unique keys: update the value in place if the key is present,
otherwise append the new binding. -/
def dictInsert (d : List (List Char × List Char)) (k v : List Char) :
    List (List Char × List Char) :=
  if d.any (fun e => e.1 = k) then
    d.map (fun e => if e.1 = k then (k, v) else e)
  else
    d ++ [(k, v)]

/-! ## The wire codec

`encode` is `disp2.py`'s `format_udp_packet` (lines 307–317): the non-STATE
fields in insertion order as `k:v` pairs joined by commas, prefixed with the
state token and `|`.  `decode` is the parsing block of `moni2.py`'s
`udp_receiver` (lines 525–540): the received bytes are stripped, split once on
`|`; each comma-separated chunk containing `:` is split once on `:` and both
halves stripped, then stored by Python dict assignment into a dict seeded with
the STATE key; a line with no `|` falls back to the legacy comma format whose
state is the chunk before the first comma, with no fields. -/

/-- A decoded telemetry observation: the state token and the ordered
non-STATE fields. -/
structure Sample where
  state : List Char
  fields : List (List Char × List Char)
deriving DecidableEq

/-- The reserved STATE key. -/
def sKEY : List Char := ['S', 'T', 'A', 'T', 'E']

/-- The encoder `format_udp_packet` (disp2.py): `STATE|k1:v1,k2:v2,...`. -/
def format_udp_packet (s : Sample) : List Char :=
  s.state ++ '|' :: joinWith ',' (s.fields.map (fun kv => kv.1 ++ ':' :: kv.2))

/-- The parsed-data dict built by `udp_receiver` for a line (already
stripped) that contains `|`: seeded with the STATE binding, then each
`k:v` chunk inserted with both halves stripped. -/
def parsePiped (line : List Char) : List (List Char × List Char) :=
  (splitAll ',' (splitFirst '|' line).2).foldl
    (fun d pair =>
      if ':' ∈ pair then
        dictInsert d (pyStrip (splitFirst ':' pair).1) (pyStrip (splitFirst ':' pair).2)
      else d)
    [(sKEY, (splitFirst '|' line).1)]

/-- The parsed-data dict for a received line: the piped format when `|`
occurs, otherwise the legacy fallback `{'STATE': line.split(',')[0]}`. -/
def parseLine (line : List Char) : List (List Char × List Char) :=
  if '|' ∈ line then parsePiped line
  else
    match splitAll ',' line with
    | [] => [(sKEY, ['U', 'N', 'K', 'N', 'O', 'W', 'N'])]
    | p :: _ => [(sKEY, p)]

/-- The Sample view of a parsed-data dict: the STATE binding as the state,
the remaining bindings in order as the fields. -/
def sampleOfDict (d : List (List Char × List Char)) : Sample :=
  { state := (assocFind sKEY d).getD []
    fields := d.filter (fun e => decide (e.1 ≠ sKEY)) }

/-- The decoder: strip the received bytes and parse them, viewed as a Sample. -/
def decode (raw : List Char) : Sample :=
  sampleOfDict (parseLine (pyStrip raw))

/-- Character-list literal from a string literal. -/
def str (s : String) : List Char := s.data

/-- A token free of the three reserved wire separators. -/
def cleanTok (x : List Char) : Prop := '|' ∉ x ∧ ',' ∉ x ∧ ':' ∉ x

instance (x : List Char) : Decidable (cleanTok x) := by
  unfold cleanTok; infer_instance

/-- A token with no leading and no trailing whitespace (`x.strip() == x`). -/
def trimmed (x : List Char) : Prop :=
  x.dropWhile isWs = x ∧ x.reverse.dropWhile isWs = x.reverse

instance (x : List Char) : Decidable (trimmed x) := by
  unfold trimmed; infer_instance

/-! ## The receiver's ingestion loop (`moni2.py`, `udp_receiver`, lines 428–585)

One loop iteration that received a datagram: decode+strip the bytes, skip the
line if empty, run the phase-sequence validation block (lines 490–522), parse
(lines 524–540), run duplicate suppression (lines 542–552), and append to
`data_rows` under the capacity policy (lines 554–568).  Mutable globals of the
source become the fields of `RecState`; each log entry additionally records
the raw line it came from, for analysis. -/

/-- The list `expected_state_sequence` (moni2.py line 370). -/
def expected_state_sequence : List (List Char) :=
  [str "IDLE", str "STARTUP", str "MAIN_FUELING", str "SHUTDOWN"]

/-- Python `expected_state_sequence.index(t)` guarded by
`t in expected_state_sequence`: the phase index of a known state token. -/
def seqIdx (t : List Char) : Option Nat :=
  if t = str "IDLE" then some 0
  else if t = str "STARTUP" then some 1
  else if t = str "MAIN_FUELING" then some 2
  else if t = str "SHUTDOWN" then some 3
  else none

/-- The phase-sequence validation block (moni2.py lines 490–522) for a line
containing `|`, given the log length and `current_sequence_index[0]`.
`none` means the sample is rejected (`continue`); `some c` means it proceeds
with the index updated to `c`.  A line without `|` skips the block entirely.
Note the fall-through: a token outside the known sequence is only handled by
the first-reception branch; afterwards no branch rejects it, so it proceeds
with the index unchanged. -/
def validate_state (line : List Char) (loglen : Nat) (cur : Nat) : Option Nat :=
  if '|' ∈ line then
    if loglen = 0 then
      some ((seqIdx (splitFirst '|' line).1).getD cur)
    else if (splitFirst '|' line).1 = str "IDLE" then
      some 0
    else
      match seqIdx (splitFirst '|' line).1 with
      | some e =>
        if e = cur + 1 then some e
        else if e = cur then some cur
        else none
      | none => some cur
  else some cur

/-- The capacity `MAX_DATA_POINTS` (moni2.py line 556). -/
def MAX_DATA_POINTS : Nat := 3600

/-- The append-with-eviction step on `data_rows` (moni2.py lines 559–568):
append the new row; if the length then exceeds `MAX_DATA_POINTS`, drop
`len - MAX_DATA_POINTS + 600` rows from the front in one slice. -/
def appendRow {α : Type} (rows : List α) (x : α) : List α :=
  let rows' := rows ++ [x]
  if MAX_DATA_POINTS < rows'.length then
    rows'.drop (rows'.length - MAX_DATA_POINTS + 600)
  else rows'

/-- One `data_rows` entry: the arrival timestamp, the raw line it decoded
from, and the parsed-data dict. -/
structure Row where
  time : ℚ
  line : List Char
  data : List (List Char × List Char)
deriving DecidableEq

/-- The receiver's mutable state: `data_rows`, `current_sequence_index[0]`,
and `last_received_data` (content and timestamp). -/
structure RecState where
  data_rows : List Row
  seq_index : Nat
  last_content : List Char
  last_time : ℚ
deriving DecidableEq

/-- The receiver's state at program start (moni2.py lines 363–371). -/
def recInit : RecState :=
  { data_rows := [], seq_index := 0, last_content := [], last_time := 0 }

/-- One ingestion-loop iteration on the already-stripped line. -/
def recStepLine (s : RecState) (line : List Char) (t : ℚ) : RecState :=
  if line = [] then s
  else
    match validate_state line s.data_rows.length s.seq_index with
    | none => s
    | some c =>
      if line = s.last_content ∧ ratSub t s.last_time < mkRat 1 5 then
        { s with seq_index := c }
      else
        { data_rows := appendRow s.data_rows ⟨t, line, parseLine line⟩
          seq_index := c
          last_content := line
          last_time := t }

/-- One ingestion-loop iteration for a received datagram decoding to `raw`,
with `timestamp = t`. -/
def recStep (s : RecState) (raw : List Char) (t : ℚ) : RecState :=
  recStepLine s (pyStrip raw) t

/-- Run the ingestion loop over a list of received `(bytes, timestamp)`
datagrams. -/
def recRun (s : RecState) (evs : List (List Char × ℚ)) : RecState :=
  evs.foldl (fun s e => recStep s e.1 e.2) s

/-- An external event touching the validator index: a received datagram, the
ON command (`on_on`, moni2.py lines 1619–1670: clear the log, reset the
duplicate-suppression memory and the sequence index), or the OFF command
(`on_off`, moni2.py lines 1817–1827: reset the sequence index, keep the
data). -/
inductive Ev
  | pkt (raw : List Char) (t : ℚ)
  | cmdOn
  | cmdOff
deriving DecidableEq

/-- One step of the receiver under control events. -/
def evStep (s : RecState) : Ev → RecState
  | .pkt raw t => recStep s raw t
  | .cmdOn => { data_rows := [], seq_index := 0, last_content := [], last_time := 0 }
  | .cmdOff => { s with seq_index := 0 }

/-- The known-phase index of the wire state token of a logged row that came
from a piped line (the part before `|`, the token the validator judged);
`none` for legacy no-`|` rows and for unknown tokens. -/
def pipedTokenIdx (line : List Char) : Option Nat :=
  if '|' ∈ line then seqIdx (splitFirst '|' line).1 else none

/-- The known-phase indices, in log order, of the validator-gated rows. -/
def phaseTrace (rows : List Row) : List Nat :=
  rows.filterMap (fun r => pipedTokenIdx r.line)

/-- The known-phase index of a logged row judged by its stored STATE entry. -/
def rowStateIdx (r : Row) : Option Nat :=
  seqIdx ((assocFind sKEY r.data).getD [])

/-- The phase-monotonicity relation between consecutive admitted indices:
non-decreasing, except that an IDLE sample (index 0) may always follow. -/
def monoExceptIdle (a b : Nat) : Prop := a ≤ b ∨ b = 0

instance (a b : Nat) : Decidable (monoExceptIdle a b) := by
  unfold monoExceptIdle; infer_instance

/-- The reachable-state invariant of the ingestion loop: the known-phase
index trace of the validator-gated logged rows satisfies phase monotonicity,
the expected index agrees with the last traced index, and the remembered
duplicate-suppression line is the line of the last logged row. -/
def RecInv (s : RecState) : Prop :=
  List.Chain' monoExceptIdle (phaseTrace s.data_rows)
  ∧ (∀ k, (phaseTrace s.data_rows).getLast? = some k → s.seq_index = k)
  ∧ (s.data_rows = [] → s.last_content = [])
  ∧ (∀ r, s.data_rows.getLast? = some r → s.last_content = r.line)

/-! ## The sender's precision send loop (`disp2.py`, `send_data_loop`,
lines 330–430)

One loop iteration: the target send time is `start_time + cycle_count *
send_interval`; after the precision wait the payload is generated and sent.
On success the phase may advance by elapsed wall time, the cycle counter is
incremented, and completing the fourth phase resets `start_time` to the
actual send time and `cycle_count` to zero (before the increment).  On a
socket error only the error counter changes, resetting to zero past the
threshold of 10 after the socket re-initialization. -/

/-- The durations `state_durations` (disp2.py lines 128–133), indexed in
`simulation_states` order IDLE, STARTUP, MAIN_FUELING, SHUTDOWN. -/
def state_durations : List ℚ := [5, 5, 120, 20]

/-- The sender's mutable state in `send_data_loop`. -/
structure SendState where
  start_time : ℚ
  cycle_count : Nat
  state_index : Nat
  packets_sent : Nat
  network_errors : Nat
deriving DecidableEq

/-- The cadence `send_interval` (disp2.py line 119). -/
def send_interval : ℚ := 1

/-- The schedule `target_send_time` (disp2.py line 344): the absolute-time schedule of the
current cycle. -/
def target_send_time (s : SendState) : ℚ :=
  s.start_time + s.cycle_count * send_interval

/-- The elapsed time in the current phase (disp2.py lines 389–391). -/
def state_elapsed (s : SendState) (actual : ℚ) : ℚ :=
  (actual - s.start_time) - (state_durations.take s.state_index).sum

/-- The current send fires and completes the full four-phase cycle: the
current phase's time is up and the phase index wraps to 0. -/
def cycleDone (s : SendState) (actual : ℚ) : Prop :=
  state_durations.getD s.state_index 0 ≤ state_elapsed s actual
    ∧ (s.state_index + 1) % 4 = 0

instance (s : SendState) (actual : ℚ) : Decidable (cycleDone s actual) := by
  unfold cycleDone; infer_instance

/-- One iteration of `send_data_loop` after the precision wait fired at
`actual`: `ok` tells whether `sendto` succeeded or raised a socket error.
On success the phase advances when its time is up; completing the fourth
phase sets `start_time := actual` and `cycle_count := 0`, and in every
success branch the loop then runs `cycle_count += 1` (hence the `0 + 1`). -/
def send_cycle_step (s : SendState) (actual : ℚ) (ok : Bool) : SendState :=
  if ok then
    if state_durations.getD s.state_index 0 ≤ state_elapsed s actual then
      if (s.state_index + 1) % 4 = 0 then
        { start_time := actual, cycle_count := 0 + 1,
          state_index := (s.state_index + 1) % 4,
          packets_sent := s.packets_sent + 1, network_errors := s.network_errors }
      else
        { s with state_index := (s.state_index + 1) % 4,
                 packets_sent := s.packets_sent + 1,
                 cycle_count := s.cycle_count + 1 }
    else
      { s with packets_sent := s.packets_sent + 1,
               cycle_count := s.cycle_count + 1 }
  else
    if 10 < s.network_errors + 1 then
      { s with network_errors := 0 }
    else
      { s with network_errors := s.network_errors + 1 }

/-! ## General lemmas -/

theorem ratSub_eq (a b : ℚ) : ratSub a b = a - b := by
  rw [ratSub, Rat.mkRat_eq_div]
  have ha : ((a.den : ℤ) : ℚ) ≠ 0 := by exact_mod_cast a.den_nz
  have hb : ((b.den : ℤ) : ℚ) ≠ 0 := by exact_mod_cast b.den_nz
  push_cast
  conv_rhs => rw [← Rat.num_div_den a, ← Rat.num_div_den b]
  field_simp
  ring

theorem mkRat_one_five : (mkRat 1 5 : ℚ) = 1 / 5 := by
  norm_num [Rat.mkRat_eq_div]

/-- The length of `data_rows` after one append-with-eviction step. -/
theorem appendRow_length {α : Type} (rows : List α) (x : α) :
    (appendRow rows x).length =
      if MAX_DATA_POINTS < rows.length + 1 then 3000 else rows.length + 1 := by
  simp only [appendRow, List.length_append, List.length_singleton, MAX_DATA_POINTS]
  split_ifs with h
  · rw [List.length_drop]
    simp only [List.length_append, List.length_singleton]
    omega
  · simp

/-- An append step never returns the log unchanged. -/
theorem appendRow_ne {α : Type} (rows : List α) (x : α) : appendRow rows x ≠ rows := by
  intro h
  have := congrArg List.length h
  rw [appendRow_length] at this
  unfold MAX_DATA_POINTS at this
  split at this <;> omega

/-- An append step always leaves the log within the capacity bound. -/
theorem appendRow_le {α : Type} (rows : List α) (x : α) :
    (appendRow rows x).length ≤ MAX_DATA_POINTS := by
  rw [appendRow_length]
  unfold MAX_DATA_POINTS
  split <;> omega

/-- One ingestion step either leaves the log alone or performs one
append-with-eviction step on it. -/
theorem recStep_log (s : RecState) (raw : List Char) (t : ℚ) :
    (recStep s raw t).data_rows = s.data_rows ∨
      ∃ e, (recStep s raw t).data_rows = appendRow s.data_rows e := by
  unfold recStep recStepLine
  split
  · exact Or.inl rfl
  · split
    · exact Or.inl rfl
    · split
      · exact Or.inl rfl
      · exact Or.inr ⟨_, rfl⟩

theorem recStep_len_le (s : RecState) (raw : List Char) (t : ℚ)
    (h : s.data_rows.length ≤ MAX_DATA_POINTS) :
    (recStep s raw t).data_rows.length ≤ MAX_DATA_POINTS := by
  rcases recStep_log s raw t with h' | ⟨e, h'⟩
  · rw [h']; exact h
  · rw [h']; exact appendRow_le _ _

/-! ## C1: batch eviction at capacity -/

/-- C1 counterexample: appending to a log that has reached
`MAX_DATA_POINTS = 3600` entries leaves 3000 entries, not
`MAX - 600 + 1 = 3001` as the claim states. -/
theorem c1_counterexample :
    (appendRow (List.replicate 3600 (0 : ℕ)) 0).length ≠ 3600 - 600 + 1 := by
  rw [appendRow_length, List.length_replicate]
  rw [if_pos (by norm_num [MAX_DATA_POINTS])]
  norm_num

/-- C1 (amended): when append is called on a log whose length has reached
`MAX_DATA_POINTS = 3600`, a contiguous prefix of 601 old entries is evicted
in one batch slice, and immediately afterwards the length is
`MAX - 600 = 3000` (the new entry included). -/
theorem c1_eviction {α : Type} (rows : List α) (x : α) (h : rows.length = 3600) :
    appendRow rows x = (rows ++ [x]).drop 601 ∧
      (appendRow rows x).length = 3600 - 600 := by
  constructor
  · unfold appendRow MAX_DATA_POINTS
    rw [if_pos (by simp [h])]
    simp [h]
  · rw [appendRow_length, if_pos (by simp [h, MAX_DATA_POINTS])]

theorem c1_eviction_witness :
    (List.replicate 3600 (0 : ℕ)).length = 3600 ∧
      (appendRow (List.replicate 3600 (0 : ℕ)) 0).length = 3600 - 600 :=
  ⟨by rw [List.length_replicate],
    (c1_eviction (List.replicate 3600 (0 : ℕ)) 0 (by rw [List.length_replicate])).2⟩

/-! ## C8: bounded growth -/

/-- Folding append steps from the empty log keeps the length within the cap. -/
theorem foldl_appendRow_le {α : Type} (xs : List α) (acc : List α)
    (h : acc.length ≤ MAX_DATA_POINTS) :
    (xs.foldl appendRow acc).length ≤ MAX_DATA_POINTS := by
  induction xs generalizing acc with
  | nil => exact h
  | cons x xs ih => exact ih _ (appendRow_le acc x)

/-- C8: the event log's length never exceeds `MAX_DATA_POINTS = 3600` at any
observation point between append operations: any number of append steps from
the empty log (in particular `MAX + 1000` of them), and likewise any run of
the full ingestion loop from the initial receiver state, leaves
`len(data_rows) ≤ 3600`. -/
theorem c8_bounded_growth :
    (∀ xs : List Row, (xs.foldl appendRow []).length ≤ MAX_DATA_POINTS) ∧
      (∀ evs : List (List Char × ℚ),
        (recRun recInit evs).data_rows.length ≤ MAX_DATA_POINTS) := by
  constructor
  · intro xs
    exact foldl_appendRow_le xs [] (by simp [MAX_DATA_POINTS])
  · intro evs
    have : ∀ (l : List (List Char × ℚ)) (s : RecState),
        s.data_rows.length ≤ MAX_DATA_POINTS →
        (recRun s l).data_rows.length ≤ MAX_DATA_POINTS := by
      intro l
      induction l with
      | nil => intro s h; exact h
      | cons e l ih =>
        intro s h
        exact ih _ (recStep_len_le s e.1 e.2 h)
    exact this evs recInit (by simp [recInit, MAX_DATA_POINTS])

/-! ## C10: the expected-phase index stays in range -/

theorem seqIdx_lt (t : List Char) (e : Nat) (h : seqIdx t = some e) : e < 4 := by
  unfold seqIdx at h
  split_ifs at h <;> simp_all <;> omega

/-- The validation block only ever writes 0, the current index, or a known
phase's index (all `< 4`) into `current_sequence_index[0]`. -/
theorem validate_state_lt {line : List Char} {n cur c : Nat} (hc : cur < 4)
    (h : validate_state line n cur = some c) : c < 4 := by
  unfold validate_state at h
  split at h
  · split at h
    · have h := Option.some.inj h
      rcases h' : seqIdx (splitFirst '|' line).1 with _ | e
      · rw [h'] at h; simpa [← h] using hc
      · rw [h'] at h; rw [← h]; simpa using seqIdx_lt _ _ h'
    · split at h
      · have h := Option.some.inj h; omega
      · split at h
        · next e he =>
          split at h
          · have h := Option.some.inj h
            rw [← h]; exact seqIdx_lt _ _ he
          · split at h
            · have h := Option.some.inj h; rw [← h]; exact hc
            · cases h
        · have h := Option.some.inj h; rw [← h]; exact hc
  · have h := Option.some.inj h; rw [← h]; exact hc

theorem recStep_seq_lt (s : RecState) (raw : List Char) (t : ℚ)
    (h : s.seq_index < 4) : (recStep s raw t).seq_index < 4 := by
  unfold recStep recStepLine
  split
  · exact h
  · split
    · exact h
    · next c hv =>
      split
      · exact validate_state_lt h hv
      · exact validate_state_lt h hv

/-- C10: `current_sequence_index[0]` is initialised to 0 and stays below 4
under any interleaving of received datagrams, ON commands and OFF commands,
so indexing `expected_state_sequence` (length 4) with it never goes out of
bounds. -/
theorem c10_seq_index_in_range :
    recInit.seq_index = 0 ∧ expected_state_sequence.length = 4 ∧
      ∀ evs : List Ev, (evs.foldl evStep recInit).seq_index < 4 := by
  refine ⟨rfl, rfl, ?_⟩
  have key : ∀ (evs : List Ev) (s : RecState), s.seq_index < 4 →
      (evs.foldl evStep s).seq_index < 4 := by
    intro evs
    induction evs with
    | nil => intro s h; exact h
    | cons e l ih =>
      intro s h
      cases e with
      | pkt raw t => exact ih _ (recStep_seq_lt _ _ _ h)
      | cmdOn => exact ih _ (by norm_num [evStep])
      | cmdOff => exact ih _ (by norm_num [evStep])
  intro evs
  exact key evs recInit (by norm_num [recInit])

/-! ## C4: behaviour on transport send failure -/

/-- C4 counterexample: from a state in cycle 5, a failed send leaves
`cycle_count` at 5 — the sender re-attempts the same cycle rather than moving
on to cycle 6 as the claim states. -/
theorem c4_counterexample :
    (send_cycle_step ⟨0, 5, 0, 0, 0⟩ 5 false).cycle_count ≠ 5 + 1 := by decide

/-- C4 (amended): when the send of a cycle fails, the error counter is
incremented (resetting to 0 past the consecutive-error threshold of 10 after
the socket re-initialization), the failed payload is not resent, and the
cycle counter, session start and hence the scheduled target time are left
unchanged: the same cycle index is re-attempted (with a freshly generated
payload) at the already-passed target time, not cycle `n + 1`. -/
theorem c4_send_failure (s : SendState) (a : ℚ) :
    send_cycle_step s a false =
      { s with network_errors :=
          if 10 < s.network_errors + 1 then 0 else s.network_errors + 1 } ∧
      (send_cycle_step s a false).packets_sent = s.packets_sent ∧
      (send_cycle_step s a false).cycle_count = s.cycle_count ∧
      target_send_time (send_cycle_step s a false) = target_send_time s := by
  have hstep : send_cycle_step s a false =
      if 10 < s.network_errors + 1 then { s with network_errors := 0 }
      else { s with network_errors := s.network_errors + 1 } := by
    simp [send_cycle_step]
  refine ⟨?_, ?_, ?_, ?_⟩ <;> rw [hstep] <;> split_ifs <;> simp [target_send_time]

/-! ## C3: absolute-time scheduling without error correction -/

/-- C3: the scheduled fire time of cycle `n` is
`start_time + n * send_interval`; after a successful send the session start
and the cycle counter are reset exactly when the full four-phase cycle
completes (the counter then continuing from the just-sent cycle as cycle 0),
and otherwise the counter advances by one with the session start untouched —
in particular the measured timing error `actual - target` never feeds back
into the counter; a failed send leaves both untouched. -/
theorem c3_absolute_schedule (s : SendState) (a : ℚ) :
    target_send_time s = s.start_time + s.cycle_count * send_interval
    ∧ (send_cycle_step s a true).start_time =
        (if cycleDone s a then a else s.start_time)
    ∧ (send_cycle_step s a true).cycle_count =
        (if cycleDone s a then 0 else s.cycle_count) + 1
    ∧ (send_cycle_step s a false).start_time = s.start_time
    ∧ (send_cycle_step s a false).cycle_count = s.cycle_count := by
  refine ⟨rfl, ?_, ?_, ?_, ?_⟩ <;>
    · simp only [send_cycle_step, cycleDone]
      split_ifs <;> first | rfl | tauto

/-- Unfolding of one ingestion iteration when the validation block lets the
sample through with updated index `c`. -/
theorem recStepLine_some (s : RecState) (line : List Char) (t : ℚ) (c : Nat)
    (h1 : line ≠ [])
    (h2 : validate_state line s.data_rows.length s.seq_index = some c) :
    recStepLine s line t =
      if line = s.last_content ∧ ratSub t s.last_time < mkRat 1 5 then
        { s with seq_index := c }
      else
        { data_rows := appendRow s.data_rows ⟨t, line, parseLine line⟩,
          seq_index := c, last_content := line, last_time := t } := by
  unfold recStepLine
  rw [if_neg h1, h2]

/-- Unfolding of one ingestion iteration when the validation block rejects
the sample: nothing changes. -/
theorem recStepLine_none (s : RecState) (line : List Char) (t : ℚ)
    (h1 : line ≠ [])
    (h2 : validate_state line s.data_rows.length s.seq_index = none) :
    recStepLine s line t = s := by
  unfold recStepLine
  rw [if_neg h1, h2]

/-! ## C7: legacy fallback decode for lines without a pipe -/

/-- Python `split` always yields at least one chunk, and the first chunk is
the maximal separator-free part at the front. -/
theorem splitAll_eq_cons (c : Char) (l : List Char) :
    ∃ t, splitAll c l = l.takeWhile (fun x => !(x = c)) :: t := by
  induction l with
  | nil => exact ⟨[], rfl⟩
  | cons x xs ih =>
    by_cases h : x = c
    · exact ⟨splitAll c xs, by simp [splitAll, h, List.takeWhile_cons]⟩
    · obtain ⟨t, ht⟩ := ih
      exact ⟨t, by simp [splitAll, h, ht, List.takeWhile_cons]⟩

/-- C7 counterexample: the line `A,B` contains no `|`, and the claim says the
fallback sample's state is the entire line `A,B`; the code instead keeps only
the part before the first comma, giving state `A`. -/
theorem c7_counterexample :
    decode (str "A,B") ≠ ⟨str "A,B", []⟩ ∧ (decode (str "A,B")).state = str "A" := by
  constructor <;> decide

/-- C7 (amended): a received line containing no `|` decodes, via the legacy
fallback, to a sample whose state is the part of the line before the first
comma — the entire line exactly when the line has no comma — and whose field
set is empty. -/
theorem c7_fallback (raw : List Char) (h : '|' ∉ pyStrip raw) :
    (decode raw).fields = [] ∧
      (decode raw).state = (pyStrip raw).takeWhile (fun x => !(x = ',')) := by
  unfold decode parseLine
  rw [if_neg h]
  obtain ⟨t, ht⟩ := splitAll_eq_cons ',' (pyStrip raw)
  rw [ht]
  unfold sampleOfDict
  constructor
  · simp
  · simp [assocFind]

theorem c7_fallback_witness :
    ('|' ∉ pyStrip (str "A,B")) ∧
      ((decode (str "A,B")).fields = [] ∧
        (decode (str "A,B")).state = (pyStrip (str "A,B")).takeWhile (fun x => !(x = ','))) :=
  ⟨by decide, c7_fallback (str "A,B") (by decide)⟩

/-! ## C5: duplicate suppression -/

/-- C5: a sample that passed the phase validation block is dropped by the
duplicate-suppression check — leaving the log untouched — exactly when its
line is identical to the previously admitted line and it arrived less than
0.2 s after it; in particular the concrete wire line `IDLE|SOC:10` delivered
twice 120 ms apart is admitted once, and delivered twice 300 ms apart is
admitted twice. -/
theorem c5_duplicate_suppression (s : RecState) (raw : List Char) (t : ℚ) (c : Nat)
    (h1 : pyStrip raw ≠ [])
    (h2 : validate_state (pyStrip raw) s.data_rows.length s.seq_index = some c) :
    ((recStep s raw t).data_rows = s.data_rows ↔
        (pyStrip raw = s.last_content ∧ t - s.last_time < 1 / 5)) ∧
      (recRun recInit [(str "IDLE|SOC:10", 0),
          (str "IDLE|SOC:10", mkRat 12 100)]).data_rows.length = 1 ∧
      (recRun recInit [(str "IDLE|SOC:10", 0),
          (str "IDLE|SOC:10", mkRat 3 10)]).data_rows.length = 2 := by
  refine ⟨?_, by decide, by decide⟩
  unfold recStep
  rw [recStepLine_some s (pyStrip raw) t c h1 h2]
  by_cases hd : pyStrip raw = s.last_content ∧ ratSub t s.last_time < mkRat 1 5
  · rw [if_pos hd]
    exact iff_of_true rfl
      ⟨hd.1, by rw [← ratSub_eq, ← mkRat_one_five]; exact hd.2⟩
  · rw [if_neg hd]
    apply iff_of_false
    · exact fun hh => appendRow_ne _ _ hh
    · intro hcon
      exact hd ⟨hcon.1, by rw [ratSub_eq, mkRat_one_five]; exact hcon.2⟩

theorem c5_duplicate_suppression_witness :
    (pyStrip (str "IDLE|SOC:10") ≠ []) ∧
      validate_state (pyStrip (str "IDLE|SOC:10"))
        (recRun recInit [(str "IDLE|SOC:10", 0)]).data_rows.length
        (recRun recInit [(str "IDLE|SOC:10", 0)]).seq_index = some 0 ∧
      (((recStep (recRun recInit [(str "IDLE|SOC:10", 0)]) (str "IDLE|SOC:10")
            (mkRat 12 100)).data_rows
          = (recRun recInit [(str "IDLE|SOC:10", 0)]).data_rows ↔
        (pyStrip (str "IDLE|SOC:10")
            = (recRun recInit [(str "IDLE|SOC:10", 0)]).last_content ∧
          mkRat 12 100 - (recRun recInit [(str "IDLE|SOC:10", 0)]).last_time
            < 1 / 5)) ∧
      (recRun recInit [(str "IDLE|SOC:10", 0),
          (str "IDLE|SOC:10", mkRat 12 100)]).data_rows.length = 1 ∧
      (recRun recInit [(str "IDLE|SOC:10", 0),
          (str "IDLE|SOC:10", mkRat 3 10)]).data_rows.length = 2) :=
  ⟨by decide, by decide,
    c5_duplicate_suppression (recRun recInit [(str "IDLE|SOC:10", 0)])
      (str "IDLE|SOC:10") (mkRat 12 100) 0 (by decide) (by decide)⟩

/-! ## C2: rejection of out-of-order samples -/

/-- C2 counterexample: after one sample has been admitted, a line whose phase
token `FOO` is not one of the four known phases (so its index is neither the
expected index nor the successor) is appended to the log all the same — the
claim says it must never be: the unknown token falls through every branch of
the validation block. -/
theorem c2_counterexample :
    seqIdx (str "FOO") = none ∧
      (recRun recInit [(str "IDLE|SOC:10", 0)]).data_rows.length = 1 ∧
      (recRun recInit [(str "IDLE|SOC:10", 0), (str "FOO|x:1", 1)]).data_rows.map
          Row.line
        = [str "IDLE|SOC:10", str "FOO|x:1"] := by
  refine ⟨by decide, by decide, by decide⟩

/-- C2 (amended): after at least one sample has been admitted, a sample whose
phase token is one of the four known phases, is not IDLE, and whose index is
neither the expected index nor the expected index + 1 is rejected by the
validation block and changes nothing — in particular it is never appended to
the log.  (Tokens outside the four known phases are not covered: they fall
through the block and are admitted with the expected index unchanged.) -/
theorem c2_out_of_order_rejected (s : RecState) (raw : List Char) (t : ℚ) (e : Nat)
    (h1 : s.data_rows ≠ [])
    (h2 : '|' ∈ pyStrip raw)
    (h3 : seqIdx ((splitFirst '|' (pyStrip raw)).1) = some e)
    (h4 : (splitFirst '|' (pyStrip raw)).1 ≠ str "IDLE")
    (h5 : e ≠ s.seq_index) (h6 : e ≠ s.seq_index + 1) :
    recStep s raw t = s := by
  have hne : pyStrip raw ≠ [] := by
    intro hh; rw [hh] at h2; cases h2
  have hv : validate_state (pyStrip raw) s.data_rows.length s.seq_index = none := by
    unfold validate_state
    rw [if_pos h2, if_neg (by simpa [List.length_eq_zero] using h1), if_neg h4, h3]
    show (if e = s.seq_index + 1 then some e
      else if e = s.seq_index then some s.seq_index else none) = none
    rw [if_neg h6, if_neg h5]
  unfold recStep
  exact recStepLine_none s (pyStrip raw) t hne hv

theorem c2_out_of_order_rejected_witness :
    ((recRun recInit [(str "MAIN_FUELING|a:1", 0)]).data_rows ≠ []) ∧
      ('|' ∈ pyStrip (str "STARTUP|b:2")) ∧
      (seqIdx ((splitFirst '|' (pyStrip (str "STARTUP|b:2"))).1) = some 1) ∧
      ((splitFirst '|' (pyStrip (str "STARTUP|b:2"))).1 ≠ str "IDLE") ∧
      (1 ≠ (recRun recInit [(str "MAIN_FUELING|a:1", 0)]).seq_index) ∧
      (1 ≠ (recRun recInit [(str "MAIN_FUELING|a:1", 0)]).seq_index + 1) ∧
      recStep (recRun recInit [(str "MAIN_FUELING|a:1", 0)]) (str "STARTUP|b:2") 1
        = recRun recInit [(str "MAIN_FUELING|a:1", 0)] :=
  ⟨by decide, by decide, by decide, by decide, by decide, by decide,
    c2_out_of_order_rejected (recRun recInit [(str "MAIN_FUELING|a:1", 0)])
      (str "STARTUP|b:2") 1 1 (by decide) (by decide) (by decide) (by decide)
      (by decide) (by decide)⟩

/-! ## C6: codec round trip -/

theorem trimmed_pyStrip {x : List Char} (h : trimmed x) : pyStrip x = x := by
  unfold pyStrip
  rw [h.1, h.2, List.reverse_reverse]

theorem dropWhile_eq_self_head {p : Char → Bool} {c : Char} {t : List Char}
    (h : (c :: t).dropWhile p = c :: t) : p c = false := by
  by_contra hc
  rw [List.dropWhile_cons, if_pos (by simpa using hc)] at h
  have hlen := congrArg List.length h
  have hle := (List.dropWhile_suffix (l := t) p).length_le
  simp only [List.length_cons] at hlen
  omega

theorem trimmed_getLast {x : List Char} (h : trimmed x) {c : Char}
    (hc : x.getLast? = some c) : isWs c = false := by
  rw [← List.head?_reverse] at hc
  have h2 := h.2
  cases hrev : x.reverse with
  | nil => rw [hrev] at hc; cases hc
  | cons d t =>
    rw [hrev] at hc h2
    have : d = c := by simpa using hc
    rw [← this]
    exact dropWhile_eq_self_head h2

/-- A list whose head and last characters are not whitespace is fixed by
stripping. -/
theorem pyStrip_eq_self {x : List Char}
    (hhead : ∀ c t, x = c :: t → isWs c = false)
    (hlast : ∀ c, x.getLast? = some c → isWs c = false) :
    pyStrip x = x := by
  have h1 : x.dropWhile isWs = x := by
    cases hx : x with
    | nil => rfl
    | cons c t => rw [List.dropWhile_cons, if_neg (by simp [hhead c t hx])]
  have h2 : x.reverse.dropWhile isWs = x.reverse := by
    cases hrev : x.reverse with
    | nil => rfl
    | cons c t =>
      have hc : x.getLast? = some c := by rw [← List.head?_reverse, hrev]; rfl
      rw [List.dropWhile_cons, if_neg (by simp [hlast c hc])]
  unfold pyStrip
  rw [h1, h2, List.reverse_reverse]

theorem joinWith_ne_nil (c : Char) (ps : List (List Char)) (hne : ps ≠ [])
    (h : ∀ p ∈ ps, p ≠ []) : joinWith c ps ≠ [] := by
  cases ps with
  | nil => exact absurd rfl hne
  | cons p ps =>
    cases ps with
    | nil => simpa [joinWith] using h p (by simp)
    | cons r rs => simp [joinWith]

/-- The last element of a separator-join of nonempty parts is the last
element of the last part. -/
theorem joinWith_getLast? (c : Char) (ps : List (List Char))
    (h : ∀ p ∈ ps, p ≠ []) (q : List Char) (hq : ps.getLast? = some q) :
    (joinWith c ps).getLast? = q.getLast? := by
  induction ps with
  | nil => cases hq
  | cons p ps ih =>
    cases ps with
    | nil =>
      have : p = q := by simpa using hq
      simp [joinWith, this]
    | cons r rs =>
      have hne : joinWith c (r :: rs) ≠ [] :=
        joinWith_ne_nil c (r :: rs) (by simp) (fun x hx => h x (by simp [hx]))
      have hj : joinWith c (p :: r :: rs) = p ++ c :: joinWith c (r :: rs) := rfl
      rw [hj, List.getLast?_append_of_ne_nil _ (by simp)]
      have hcj : (c :: joinWith c (r :: rs)) = [c] ++ joinWith c (r :: rs) := rfl
      rw [hcj, List.getLast?_append_of_ne_nil _ hne]
      exact ih (fun x hx => h x (by simp [hx])) (by simpa using hq)

theorem splitFirst_append (c : Char) (a b : List Char) (h : c ∉ a) :
    splitFirst c (a ++ c :: b) = (a, b) := by
  induction a with
  | nil => simp [splitFirst]
  | cons x xs ih =>
    have hx : ¬x = c := fun hh => h (by simp [hh])
    have h' : c ∉ xs := fun hh => h (by simp [hh])
    simp [splitFirst, hx, ih h']

theorem splitAll_no_sep (c : Char) (p : List Char) (h : c ∉ p) :
    splitAll c p = [p] := by
  induction p with
  | nil => rfl
  | cons x xs ih =>
    have hx : ¬x = c := fun hh => h (by simp [hh])
    have h' : c ∉ xs := fun hh => h (by simp [hh])
    simp [splitAll, hx, ih h']

theorem splitAll_sep (c : Char) (p rest : List Char) (h : c ∉ p) :
    splitAll c (p ++ c :: rest) = p :: splitAll c rest := by
  induction p with
  | nil => simp [splitAll]
  | cons x xs ih =>
    have hx : ¬x = c := fun hh => h (by simp [hh])
    have h' : c ∉ xs := fun hh => h (by simp [hh])
    show splitAll c (x :: (xs ++ c :: rest)) = (x :: xs) :: splitAll c rest
    simp only [splitAll, if_neg hx]
    rw [ih h']

theorem splitAll_joinWith (c : Char) (ps : List (List Char))
    (hne : ps ≠ []) (h : ∀ p ∈ ps, c ∉ p) :
    splitAll c (joinWith c ps) = ps := by
  induction ps with
  | nil => exact absurd rfl hne
  | cons p ps ih =>
    cases ps with
    | nil => simpa [joinWith] using splitAll_no_sep c p (h p (by simp))
    | cons r rs =>
      have hj : joinWith c (p :: r :: rs) = p ++ c :: joinWith c (r :: rs) := rfl
      rw [hj, splitAll_sep c _ _ (h p (by simp)),
        ih (by simp) (fun x hx => h x (by simp [hx]))]

theorem dictInsert_fresh (d : List (List Char × List Char)) (k v : List Char)
    (h : ∀ e ∈ d, e.1 ≠ k) : dictInsert d k v = d ++ [(k, v)] := by
  unfold dictInsert
  rw [if_neg]
  intro hany
  rw [List.any_eq_true] at hany
  obtain ⟨e, he, heq⟩ := hany
  exact h e he (by simpa using heq)

/-- Folding the field-chunk parser over the encoded field pairs appends the
fields unchanged to the seeded dict. -/
theorem parse_foldl (fields : List (List Char × List Char))
    (d : List (List Char × List Char))
    (hclean : ∀ kv ∈ fields, ':' ∉ kv.1 ∧ trimmed kv.1 ∧ trimmed kv.2)
    (hfresh : ∀ kv ∈ fields, ∀ e ∈ d, e.1 ≠ kv.1)
    (hnodup : (fields.map Prod.fst).Nodup) :
    (fields.map (fun kv => kv.1 ++ ':' :: kv.2)).foldl
      (fun d pair =>
        if ':' ∈ pair then
          dictInsert d (pyStrip (splitFirst ':' pair).1) (pyStrip (splitFirst ':' pair).2)
        else d) d
    = d ++ fields := by
  induction fields generalizing d with
  | nil => simp
  | cons kv kvs ih =>
    obtain ⟨hk, htk, htv⟩ := hclean kv (by simp)
    have hmem : ':' ∈ kv.1 ++ ':' :: kv.2 := by simp
    rw [List.map_cons, List.foldl_cons, if_pos hmem,
      splitFirst_append ':' kv.1 kv.2 hk]
    rw [show ((kv.1, kv.2) : List Char × List Char).1 = kv.1 from rfl,
      show ((kv.1, kv.2) : List Char × List Char).2 = kv.2 from rfl,
      trimmed_pyStrip htk, trimmed_pyStrip htv,
      dictInsert_fresh d kv.1 kv.2 (fun e he => hfresh kv (by simp) e he)]
    rw [ih (d ++ [(kv.1, kv.2)])
      (fun q hq => hclean q (by simp [hq]))
      ?_ (by simpa using hnodup.of_cons)]
    · simp
    · intro q hq e he
      rcases List.mem_append.1 he with hd | hkv
      · exact hfresh q (by simp [hq]) e hd
      · have : e = (kv.1, kv.2) := by simpa using hkv
        rw [this]
        have := (List.nodup_cons.1 hnodup).1
        intro heq
        exact this (by rw [heq]; exact List.mem_map_of_mem Prod.fst hq)

/-- The head character of an encoded sample is `|` or the head of the state
token. -/
theorem encode_head (s : Sample) (c : Char) (t : List Char)
    (h : format_udp_packet s = c :: t) :
    c = '|' ∨ ∃ t', s.state = c :: t' := by
  unfold format_udp_packet at h
  cases hs : s.state with
  | nil => rw [hs] at h; simp at h; exact Or.inl h.1.symm
  | cons a b =>
    rw [hs] at h
    simp at h
    obtain ⟨h1, _⟩ := h
    subst h1
    exact Or.inr ⟨b, rfl⟩

/-- The last character of an encoded sample is `|`, `:`, or the last
character of some field value. -/
theorem encode_getLast (s : Sample) (c : Char)
    (hc : (format_udp_packet s).getLast? = some c) :
    c = '|' ∨ c = ':' ∨ ∃ kv, kv ∈ s.fields ∧ kv.2.getLast? = some c := by
  unfold format_udp_packet at hc
  rw [List.getLast?_append_of_ne_nil _ (by simp)] at hc
  cases hf : s.fields with
  | nil =>
    rw [hf] at hc
    simp [joinWith] at hc
    exact Or.inl hc.symm
  | cons kv kvs =>
    rw [hf] at hc
    have hparts : ∀ p ∈ (kv :: kvs).map (fun kv => kv.1 ++ ':' :: kv.2), p ≠ [] := by
      intro p hp
      obtain ⟨q, _, hq⟩ := List.mem_map.1 hp
      rw [← hq]
      simp
    have hne : joinWith ',' ((kv :: kvs).map (fun kv => kv.1 ++ ':' :: kv.2)) ≠ [] :=
      joinWith_ne_nil _ _ (by simp) hparts
    have hcj : ('|' :: joinWith ',' ((kv :: kvs).map (fun kv => kv.1 ++ ':' :: kv.2)))
        = ['|'] ++ joinWith ',' ((kv :: kvs).map (fun kv => kv.1 ++ ':' :: kv.2)) := rfl
    rw [hcj, List.getLast?_append_of_ne_nil _ hne] at hc
    obtain ⟨lk, hlkmem, hlk⟩ : ∃ lk, lk ∈ kv :: kvs ∧
        (kv :: kvs).getLast? = some lk := by
      cases hgl : (kv :: kvs).getLast? with
      | none => simp at hgl
      | some lk => exact ⟨lk, List.mem_of_getLast?_eq_some hgl, rfl⟩
    have hmap : ((kv :: kvs).map (fun kv => kv.1 ++ ':' :: kv.2)).getLast?
        = some (lk.1 ++ ':' :: lk.2) := by
      rw [List.getLast?_map, hlk]
      rfl
    rw [joinWith_getLast? ',' _ hparts _ hmap] at hc
    rw [List.getLast?_append_of_ne_nil _ (by simp)] at hc
    cases hv : lk.2 with
    | nil =>
      rw [hv] at hc
      simp at hc
      exact Or.inr (Or.inl hc.symm)
    | cons a b =>
      rw [hv] at hc
      have hcc : (':' :: a :: b).getLast? = (a :: b).getLast? :=
        List.getLast?_cons_cons ..
      rw [hcc] at hc
      refine Or.inr (Or.inr ⟨lk, hlkmem, ?_⟩)
      rw [hv]
      exact hc

/-- Stripping an encoded sample with trimmed state and field values is the
identity. -/
theorem encode_pyStrip (s : Sample) (hstate : trimmed s.state)
    (hfield : ∀ kv ∈ s.fields, trimmed kv.2) :
    pyStrip (format_udp_packet s) = format_udp_packet s := by
  apply pyStrip_eq_self
  · intro c t hct
    rcases encode_head s c t hct with h | ⟨t', h⟩
    · rw [h]; decide
    · have h1 := hstate.1
      rw [h] at h1
      exact dropWhile_eq_self_head h1
  · intro c hc
    rcases encode_getLast s c hc with h | h | ⟨kv, hmem, hlast⟩
    · rw [h]; decide
    · rw [h]; decide
    · exact trimmed_getLast (hfield kv hmem) hlast

/-- The STATE-seeded dict view collapses back to the sample when no field is
named STATE. -/
theorem sampleOfDict_cons (st : List Char) (fs : List (List Char × List Char))
    (hkeys : ∀ kv ∈ fs, kv.1 ≠ sKEY) :
    sampleOfDict ((sKEY, st) :: fs) = ⟨st, fs⟩ := by
  have h1 : assocFind sKEY ((sKEY, st) :: fs) = some st := by simp [assocFind]
  have h2 : ((sKEY, st) :: fs).filter (fun e => decide (e.1 ≠ sKEY)) = fs := by
    rw [List.filter_cons, if_neg (by simp)]
    apply List.filter_eq_self.2
    intro kv hkv
    simpa using hkeys kv hkv
  unfold sampleOfDict
  rw [h1, h2]
  rfl

/-- Parsing an encoded sample reproduces the STATE binding followed by the
fields in order. -/
theorem parsePiped_encode (s : Sample)
    (hstate : cleanTok s.state ∧ trimmed s.state)
    (hfields : ∀ kv ∈ s.fields,
      (cleanTok kv.1 ∧ trimmed kv.1) ∧ (cleanTok kv.2 ∧ trimmed kv.2))
    (hnodup : (s.fields.map Prod.fst).Nodup)
    (hkey : ∀ kv ∈ s.fields, kv.1 ≠ sKEY) :
    parsePiped (format_udp_packet s) = (sKEY, s.state) :: s.fields := by
  unfold parsePiped
  have hsp : splitFirst '|' (format_udp_packet s)
      = (s.state, joinWith ',' (s.fields.map (fun kv => kv.1 ++ ':' :: kv.2))) := by
    unfold format_udp_packet
    exact splitFirst_append '|' s.state _ hstate.1.1
  have hsp1 : (splitFirst '|' (format_udp_packet s)).1 = s.state := by rw [hsp]
  have hsp2 : (splitFirst '|' (format_udp_packet s)).2
      = joinWith ',' (s.fields.map (fun kv => kv.1 ++ ':' :: kv.2)) := by rw [hsp]
  rw [hsp1, hsp2]
  cases hf : s.fields with
  | nil => simp [joinWith, splitAll]
  | cons kv kvs =>
    have hsep : ∀ p ∈ (kv :: kvs).map (fun kv => kv.1 ++ ':' :: kv.2), ',' ∉ p := by
      intro p hp
      obtain ⟨q, hqmem, hq⟩ := List.mem_map.1 hp
      rw [← hq]
      have h1 := (hfields q (by rw [hf]; exact hqmem)).1.1.2.1
      have h2 := (hfields q (by rw [hf]; exact hqmem)).2.1.2.1
      intro hcm
      rcases List.mem_append.1 hcm with hk | hv
      · exact h1 hk
      · rcases List.mem_cons.1 hv with hcol | hv2
        · cases hcol
        · exact h2 hv2
    rw [splitAll_joinWith ',' _ (by simp) hsep]
    rw [parse_foldl (kv :: kvs) [(sKEY, s.state)]
      (fun q hq => ⟨(hfields q (by rw [hf]; exact hq)).1.1.2.2,
        (hfields q (by rw [hf]; exact hq)).1.2,
        (hfields q (by rw [hf]; exact hq)).2.2⟩)
      (fun q hq e he => by
        have : e = (sKEY, s.state) := by simpa using he
        rw [this]
        exact fun heq => hkey q (by rw [hf]; exact hq) heq.symm)
      (by rw [← hf]; exact hnodup)]
    rfl

/-- C6 counterexample: the sample with state `IDLE` and single field
`k ↦ " 1"` contains none of the reserved separators `|`, `,`, `:` in its
state or field names/values, yet decoding its encoding strips the leading
space from the value, so `decode (encode s) ≠ s`. -/
theorem c6_counterexample :
    cleanTok (str "IDLE") ∧ cleanTok (str "k") ∧ cleanTok (str " 1") ∧
      decode (format_udp_packet ⟨str "IDLE", [(str "k", str " 1")]⟩)
        ≠ ⟨str "IDLE", [(str "k", str " 1")]⟩ ∧
      decode (format_udp_packet ⟨str "IDLE", [(str "k", str " 1")]⟩)
        = ⟨str "IDLE", [(str "k", str "1")]⟩ := by
  refine ⟨by decide, by decide, by decide, by decide, by decide⟩

/-- C6 (amended): for every Sample whose state token and field names/values
contain no reserved separator characters (`|`, `,`, `:`) and no leading or
trailing whitespace, whose field names are pairwise distinct, and none of
whose field names is the reserved key STATE, `decode (encode s) = s`, with
field insertion order and values preserved. -/
theorem c6_round_trip (s : Sample)
    (hstate : cleanTok s.state ∧ trimmed s.state)
    (hfields : ∀ kv ∈ s.fields,
      (cleanTok kv.1 ∧ trimmed kv.1) ∧ (cleanTok kv.2 ∧ trimmed kv.2))
    (hnodup : (s.fields.map Prod.fst).Nodup)
    (hkey : ∀ kv ∈ s.fields, kv.1 ≠ sKEY) :
    decode (format_udp_packet s) = s := by
  unfold decode
  rw [encode_pyStrip s hstate.2 (fun kv h => (hfields kv h).2.2)]
  have hpipe : '|' ∈ format_udp_packet s := by
    unfold format_udp_packet
    simp
  unfold parseLine
  rw [if_pos hpipe, parsePiped_encode s hstate hfields hnodup hkey,
    sampleOfDict_cons s.state s.fields hkey]

theorem c6_round_trip_witness :
    (cleanTok (str "IDLE") ∧ trimmed (str "IDLE")) ∧
      decode (format_udp_packet ⟨str "IDLE", [(str "SOC", str "10"), (str "유량", str "0.0")]⟩)
        = ⟨str "IDLE", [(str "SOC", str "10"), (str "유량", str "0.0")]⟩ :=
  ⟨by decide,
    c6_round_trip ⟨str "IDLE", [(str "SOC", str "10"), (str "유량", str "0.0")]⟩
      (by decide) (by decide) (by decide) (by decide)⟩

/-! ## C9: phase monotonicity of admitted samples -/

theorem getLast?_decomp {α : Type} {l : List α} {a : α} (h : l.getLast? = some a) :
    ∃ l', l = l' ++ [a] := by
  induction l with
  | nil => cases h
  | cons x xs ih =>
    cases xs with
    | nil =>
      have : x = a := by simpa using h
      exact ⟨[], by simp [this]⟩
    | cons y ys =>
      rw [List.getLast?_cons_cons] at h
      obtain ⟨l', hl'⟩ := ih h
      exact ⟨x :: l', by rw [hl']; rfl⟩

theorem phaseTrace_append (a b : List Row) :
    phaseTrace (a ++ b) = phaseTrace a ++ phaseTrace b :=
  List.filterMap_append a b _

/-- The trace of a dropped log is a suffix of the trace of the log. -/
theorem phaseTrace_drop_suffix (rows : List Row) (n : Nat) :
    phaseTrace (rows.drop n) <:+ phaseTrace rows :=
  ⟨phaseTrace (rows.take n), by rw [← phaseTrace_append, List.take_append_drop]⟩

theorem suffix_getLast? {α : Type} {l' l : List α} (h : l' <:+ l) (hne : l' ≠ []) :
    l'.getLast? = l.getLast? := by
  obtain ⟨pre, hpre⟩ := h
  rw [← hpre, List.getLast?_append_of_ne_nil _ hne]

/-- The last traced index comes from the last logged row when that row is
validator-gated with a known token. -/
theorem phaseTrace_getLast {rows : List Row} {r : Row} {k : Nat}
    (hr : rows.getLast? = some r) (hk : pipedTokenIdx r.line = some k) :
    (phaseTrace rows).getLast? = some k := by
  obtain ⟨l', hl'⟩ := getLast?_decomp hr
  rw [hl', phaseTrace_append]
  have : phaseTrace [r] = [k] := by
    unfold phaseTrace
    rw [List.filterMap_cons, hk]
    rfl
  rw [this, List.getLast?_concat]

/-- One append-with-eviction step drops a prefix of the old log and puts the
new row at the end. -/
theorem appendRow_eq_drop_append {α : Type} (rows : List α) (x : α) :
    ∃ n, n ≤ rows.length ∧ appendRow rows x = rows.drop n ++ [x] := by
  simp only [appendRow, List.length_append, List.length_singleton]
  split
  · next h =>
    have hle : rows.length + 1 - MAX_DATA_POINTS + 600 ≤ rows.length := by
      unfold MAX_DATA_POINTS at *
      omega
    exact ⟨rows.length + 1 - MAX_DATA_POINTS + 600, hle,
      List.drop_append_of_le_length hle⟩
  · exact ⟨0, Nat.zero_le _, by simp⟩

/-- Exhaustive description of the validation block's accepting outcomes, in
terms of the known-phase index of the line's wire token. -/
theorem validate_cases {line : List Char} {n cur c : Nat}
    (h : validate_state line n cur = some c) :
    (pipedTokenIdx line = none ∧ c = cur)
    ∨ (n = 0 ∧ ∃ k, pipedTokenIdx line = some k ∧ c = k)
    ∨ (∃ k, pipedTokenIdx line = some k ∧ k = 0 ∧ c = 0)
    ∨ (∃ e, pipedTokenIdx line = some e ∧ e = cur + 1 ∧ c = e)
    ∨ (∃ e, pipedTokenIdx line = some e ∧ e = cur ∧ c = cur) := by
  by_cases hpipe : '|' ∈ line
  · have hp : pipedTokenIdx line = seqIdx (splitFirst '|' line).1 := by
      rw [pipedTokenIdx, if_pos hpipe]
    unfold validate_state at h
    rw [if_pos hpipe] at h
    by_cases hn : n = 0
    · rw [if_pos hn] at h
      have hc := Option.some.inj h
      cases hs : seqIdx (splitFirst '|' line).1 with
      | none =>
        refine Or.inl ⟨by rw [hp, hs], ?_⟩
        rw [← hc, hs]
        rfl
      | some k =>
        refine Or.inr (Or.inl ⟨hn, k, by rw [hp, hs], ?_⟩)
        rw [← hc, hs]
        rfl
    · rw [if_neg hn] at h
      by_cases hidle : (splitFirst '|' line).1 = str "IDLE"
      · rw [if_pos hidle] at h
        have hc := Option.some.inj h
        refine Or.inr (Or.inr (Or.inl ⟨0, ?_, rfl, hc.symm⟩))
        rw [hp, hidle]
        rfl
      · rw [if_neg hidle] at h
        cases hs : seqIdx (splitFirst '|' line).1 with
        | none =>
          rw [hs] at h
          change some cur = some c at h
          exact Or.inl ⟨by rw [hp, hs], (Option.some.inj h).symm⟩
        | some e =>
          rw [hs] at h
          change (if e = cur + 1 then some e
            else if e = cur then some cur else none) = some c at h
          by_cases he1 : e = cur + 1
          · rw [if_pos he1] at h
            exact Or.inr (Or.inr (Or.inr (Or.inl
              ⟨e, by rw [hp, hs], he1, (Option.some.inj h).symm⟩)))
          · rw [if_neg he1] at h
            by_cases he2 : e = cur
            · rw [if_pos he2] at h
              exact Or.inr (Or.inr (Or.inr (Or.inr
                ⟨e, by rw [hp, hs], he2, (Option.some.inj h).symm⟩)))
            · rw [if_neg he2] at h
              cases h
  · unfold validate_state at h
    rw [if_neg hpipe] at h
    exact Or.inl ⟨by rw [pipedTokenIdx, if_neg hpipe], (Option.some.inj h).symm⟩

/-- A sample whose line equals the last logged row's line is always accepted
by the validation block with the expected index unchanged. -/
theorem validate_dup_eq {s : RecState} {r : Row} {c : Nat}
    (hinv : RecInv s)
    (hr : s.data_rows.getLast? = some r)
    (hv : validate_state r.line s.data_rows.length s.seq_index = some c) :
    c = s.seq_index := by
  have hne : s.data_rows ≠ [] := by
    intro hh
    rw [hh] at hr
    cases hr
  rcases validate_cases hv with ⟨_, hc⟩ | ⟨hn, _⟩ | ⟨k, hk, hk0, hc⟩
      | ⟨e, he, he1, hc⟩ | ⟨_, _, _, hc⟩
  · exact hc
  · exact absurd (List.length_eq_zero.mp hn) hne
  · have := hinv.2.1 k (phaseTrace_getLast hr hk)
    rw [hc, ← hk0, ← this]
  · have := hinv.2.1 e (phaseTrace_getLast hr he)
    omega
  · exact hc

/-- The ingestion-loop invariant holds initially. -/
theorem recInv_init : RecInv recInit := by
  refine ⟨List.chain'_nil, ?_, fun _ => rfl, ?_⟩
  · intro k hk
    cases hk
  · intro r hr
    cases hr

/-- One ingestion step preserves the invariant. -/
theorem recStep_inv (s : RecState) (raw : List Char) (t : ℚ)
    (h : RecInv s) : RecInv (recStep s raw t) := by
  by_cases hl : pyStrip raw = []
  · unfold recStep recStepLine
    rw [if_pos hl]
    exact h
  · cases hv : validate_state (pyStrip raw) s.data_rows.length s.seq_index with
    | none =>
      rw [recStep, recStepLine_none _ _ _ hl hv]
      exact h
    | some c =>
      rw [recStep, recStepLine_some _ _ _ _ hl hv]
      by_cases hd : pyStrip raw = s.last_content ∧ ratSub t s.last_time < mkRat 1 5
      · rw [if_pos hd]
        refine ⟨h.1, ?_, h.2.2.1, h.2.2.2⟩
        have hrows : s.data_rows ≠ [] := by
          intro hh
          have := h.2.2.1 hh
          rw [this] at hd
          exact hl hd.1
        obtain ⟨r, hr⟩ : ∃ r, s.data_rows.getLast? = some r := by
          cases hgl : s.data_rows.getLast? with
          | none => exact absurd (by simpa using hgl) hrows
          | some r => exact ⟨r, rfl⟩
        have hline : pyStrip raw = r.line := by
          rw [hd.1, h.2.2.2 r hr]
        rw [hline] at hv
        have hc := validate_dup_eq h hr hv
        intro k hk
        rw [hc]
        exact h.2.1 k hk
      · rw [if_neg hd]
        obtain ⟨n, hn, he⟩ :=
          appendRow_eq_drop_append s.data_rows ⟨t, pyStrip raw, parseLine (pyStrip raw)⟩
        have hsuf := phaseTrace_drop_suffix s.data_rows n
        have htr : phaseTrace (appendRow s.data_rows
            ⟨t, pyStrip raw, parseLine (pyStrip raw)⟩)
            = phaseTrace (s.data_rows.drop n)
              ++ (pipedTokenIdx (pyStrip raw)).toList := by
          rw [he, phaseTrace_append]
          congr 1
        have hFlast : ∀ m, (phaseTrace (s.data_rows.drop n)).getLast? = some m →
            s.seq_index = m := by
          intro m hm
          apply h.2.1 m
          rw [← suffix_getLast? hsuf]
          · exact hm
          · intro hh
            rw [hh] at hm
            cases hm
        refine ⟨?_, ?_, ?_, ?_⟩
        · show List.Chain' monoExceptIdle _
          rw [htr]
          cases hp : pipedTokenIdx (pyStrip raw) with
          | none =>
            simpa using (h.1.suffix hsuf)
          | some k =>
            rw [List.chain'_append]
            refine ⟨h.1.suffix hsuf, by simp [List.chain'_singleton], ?_⟩
            intro x hx y hy
            have hy' : k = y := by simpa using hy
            rw [← hy']
            have hx' := hFlast x hx
            rcases validate_cases hv with ⟨hnone, _⟩ | ⟨hn0, _⟩
                | ⟨k', hk', hk0, _⟩ | ⟨e, hee, he1, _⟩ | ⟨e, hee, he2, _⟩
            · rw [hnone] at hp
              cases hp
            · rw [List.length_eq_zero.mp hn0] at hx
              simp [phaseTrace] at hx
            · rw [hk'] at hp
              have : k = k' := (Option.some.inj hp).symm
              rw [this, hk0]
              exact Or.inr rfl
            · rw [hee] at hp
              have : k = e := (Option.some.inj hp).symm
              rw [this, he1, ← hx']
              exact Or.inl (Nat.le_succ _)
            · rw [hee] at hp
              have : k = e := (Option.some.inj hp).symm
              rw [this, he2, ← hx']
              exact Or.inl (Nat.le_refl _)
        · show ∀ k, _ → _
          intro k hk
          rw [htr] at hk
          cases hp : pipedTokenIdx (pyStrip raw) with
          | none =>
            rw [hp] at hk
            simp only [Option.toList_none, List.append_nil] at hk
            have hcur : c = s.seq_index := by
              rcases validate_cases hv with ⟨_, hc⟩ | ⟨hn0, k', hk', _⟩
                  | ⟨k', hk', _, _⟩ | ⟨e, hee, _, _⟩ | ⟨_, _, _, hc⟩
              · exact hc
              · rw [hk'] at hp; cases hp
              · rw [hk'] at hp; cases hp
              · rw [hee] at hp; cases hp
              · exact hc
            rw [hcur]
            exact hFlast k hk
          | some m =>
            rw [hp] at hk
            have hkm : k = m := by
              have : (phaseTrace (s.data_rows.drop n) ++ [m]).getLast? = some m :=
                List.getLast?_concat _
              rw [show (some m).toList = [m] from rfl] at hk
              rw [this] at hk
              exact (Option.some.inj hk).symm
            rw [hkm]
            rcases validate_cases hv with ⟨hnone, _⟩ | ⟨_, k', hk', hc⟩
                | ⟨k', hk', hk0, hc⟩ | ⟨e, hee, _, hc⟩ | ⟨e, hee, he2, hc⟩
            · rw [hnone] at hp; cases hp
            · rw [hk'] at hp
              rw [hc]
              exact Option.some.inj hp
            · rw [hk'] at hp
              rw [hc, ← hk0]
              exact Option.some.inj hp
            · rw [hee] at hp
              rw [hc]
              exact Option.some.inj hp
            · rw [hee] at hp
              rw [hc, ← he2]
              exact Option.some.inj hp
        · intro hh
          rw [he] at hh
          cases List.append_ne_nil_of_right_ne_nil _ (by simp : ([_] : List Row) ≠ []) hh
        · intro r hr
          rw [he, List.getLast?_concat] at hr
          have : r = ⟨t, pyStrip raw, parseLine (pyStrip raw)⟩ := (Option.some.inj hr).symm
          rw [this]

/-- C9 counterexample: the first line logs a MAIN_FUELING sample (index 2);
the second line `STARTUP` contains no `|`, bypasses the validation block via
the legacy fallback, and is logged as a STARTUP sample (index 1): the
admitted phase index sequence [2, 1] decreases without an intervening IDLE. -/
theorem c9_counterexample :
    (recRun recInit [(str "MAIN_FUELING|a:1", 0), (str "STARTUP", 1)]).data_rows.filterMap
        rowStateIdx = [2, 1] ∧
      ¬ monoExceptIdle 2 1 := by
  exact ⟨by decide, by decide⟩

/-- C9 (amended): over any run of the ingestion loop from the initial state,
the known-phase indices of the wire tokens of the validator-gated logged
samples (the lines containing `|`; legacy no-`|` fallback lines bypass the
validator and are excluded) form a sequence that is non-decreasing except at
IDLE samples, whose index 0 always resets the sequence. -/
theorem c9_phase_monotonicity (evs : List (List Char × ℚ)) :
    List.Chain' monoExceptIdle (phaseTrace (recRun recInit evs).data_rows) := by
  have key : ∀ (l : List (List Char × ℚ)) (s : RecState), RecInv s →
      RecInv (recRun s l) := by
    intro l
    induction l with
    | nil => intro s hs; exact hs
    | cons e l ih => intro s hs; exact ih _ (recStep_inv s e.1 e.2 hs)
  exact (key evs recInit recInv_init).1

end Monitoring
